import Mathlib

/-!
# Verification of the journal lock/unlock synchronization engine

A shallow embedding of the `journal` repository (Go): the checklist-based
change-detection mechanism (`checklist.go`), the File Pair model, the
footprint (visibility) bookkeeping, and the `Unlock`/`Lock` protocols of the
two observed revisions of the main file.

Modelling conventions:
* File contents are `String`s (modelling byte sequences); the filesystem is
  an association list from path to content.
* The MD5 hex digest (`crypto/md5` + `encoding/hex`, an external library) is
  an explicit function parameter `md5hex : String → String`.
* The gpg encryption/decryption capability is opaque: encryption is a
  function `cipher : String → String` on contents, and the success of an
  external tool invocation is a boolean predicate on the File Pair.
* Go's `bufio.Reader.ReadLine` loop over a stream is modelled by the list of
  lines of the stream (`readLines`), with end of list standing for the call
  that returns `io.EOF`.
* A Go runtime panic (out-of-range slice index) is modelled as the
  distinguished outcome `ReaderErr.indexOutOfRange`.
-/

namespace Journal

/-! ## String helpers

Executable models of the Go standard-library string functions the program
uses, written by structural recursion over the character list of a `String`
(so that the kernel can evaluate them on concrete inputs). -/

/-- Accumulator-based splitting of a character list at a separator. -/
def splitChAux (c : Char) : List Char → List Char → List String
  | [], acc => [String.mk acc.reverse]
  | x :: xs, acc =>
    if x = c then String.mk acc.reverse :: splitChAux c xs []
    else splitChAux c xs (x :: acc)

/-- Model of Go `strings.Split` with a single-character separator (the only
separators the program uses: `" "`, `"\n"`, `"/"`). Never returns `[]`. -/
def splitCh (c : Char) (s : String) : List String :=
  splitChAux c s.data []

/-- Model of Go `strings.TrimSpace`. -/
def trimSpace (s : String) : String :=
  String.mk ((s.data.dropWhile Char.isWhitespace).reverse.dropWhile
    Char.isWhitespace).reverse

/-- Model of Go `strings.HasPrefix(s, ".")`. -/
def startsWithDot (s : String) : Bool :=
  match s.data with
  | c :: _ => c = '.'
  | [] => false

/-! ## Path helpers

Models of Go's `filepath.Base`, `filepath.Dir` and `path.Join` for clean,
relative, slash-separated paths without trailing slashes (the only shapes the
program produces). -/

/-- Model of Go `filepath.Base` for clean paths: the last slash-separated
component. -/
def baseOf (p : String) : String :=
  (splitCh '/' p).getLastD p

/-- Model of Go `filepath.Dir` for clean paths: all but the last component,
`"."` when there is no slash. -/
def dirOf (p : String) : String :=
  let parts := splitCh '/' p
  if parts.length ≤ 1 then "." else String.intercalate "/" parts.dropLast

/-- Model of Go `path.Join` on a (possibly `"."`) directory and a file name. -/
def joinPath (d f : String) : String :=
  if d = "." then f else d ++ "/" ++ f

/-- The hidden-marker form of an encrypted artifact path: the source builds it
as `path.Join(filepath.Dir(enc), "." + filepath.Base(enc))` in
`FilePair.LeaveFootprint`, `FilePair.RemoveFootprint` and `FilePair.Reset`. -/
def hiddenPath (p : String) : String :=
  joinPath (dirOf p) ("." ++ baseOf p)

/-! ## Filesystem model

The filesystem an operation acts on, as an association list from path to
content. `fsGet`/`fsSet`/`fsErase`/`fsMove` model read, write-or-create,
remove (`rm`) and rename (`mv`). -/

abbrev FS := List (String × String)

/-- Content of the file at `p`, if present. -/
def fsGet : FS → String → Option String
  | [], _ => none
  | (q, v) :: fs, p => if q = p then some v else fsGet fs p

/-- Remove the file at `p` (models `rm`; a no-op when absent). -/
def fsErase (fs : FS) (p : String) : FS :=
  fs.filter (fun e => e.1 ≠ p)

/-- Write content `v` at path `p`, overwriting any existing file. -/
def fsSet (fs : FS) (p : String) (v : String) : FS :=
  (p, v) :: fsErase fs p

/-- Rename `src` to `dst` (models `mv`; a no-op when `src` is absent, in which
case the external `mv` invocation would fail — `FilePair.Reset`'s result is
discarded by `Journal.Lock`). -/
def fsMove (fs : FS) (src dst : String) : FS :=
  match fsGet fs src with
  | some v => fsSet (fsErase fs src) dst v
  | none => fs

theorem fsGet_fsErase (fs : FS) (q p : String) :
    fsGet (fsErase fs q) p = if q = p then none else fsGet fs p := by
  induction fs with
  | nil => simp [fsErase, fsGet]
  | cons e fs ih =>
    by_cases h1 : e.1 = q
    · by_cases h2 : q = p <;>
        simp_all [fsErase, fsGet, List.filter]
    · by_cases h2 : e.1 = p
      · subst h2
        simp_all [fsErase, fsGet, List.filter, decide_eq_true_eq]
        intro h
        exact absurd h.symm h1
      · simp_all [fsErase, fsGet, List.filter, decide_eq_true_eq]

theorem fsGet_fsSet (fs : FS) (q p : String) (v : String) :
    fsGet (fsSet fs q v) p = if q = p then some v else fsGet fs p := by
  by_cases h : q = p <;> simp [fsSet, fsGet, fsGet_fsErase, h]

theorem fsGet_fsMove_of_ne (fs : FS) (src dst p : String)
    (h1 : p ≠ src) (h2 : p ≠ dst) :
    fsGet (fsMove fs src dst) p = fsGet fs p := by
  unfold fsMove
  cases fsGet fs src with
  | none => rfl
  | some v =>
    simp only [fsGet_fsSet, fsGet_fsErase]
    rw [if_neg (fun h => h2 h.symm), if_neg (fun h => h1 h.symm)]

theorem fsGet_fsMove_dst (fs : FS) (src dst : String) (v : String)
    (hsrc : fsGet fs src = some v) :
    fsGet (fsMove fs src dst) dst = some v := by
  unfold fsMove
  rw [hsrc]
  simp [fsGet_fsSet]

theorem fsGet_fsMove_src (fs : FS) (src dst : String) (v : String)
    (hsrc : fsGet fs src = some v) (hne : src ≠ dst) :
    fsGet (fsMove fs src dst) src = none := by
  unfold fsMove
  rw [hsrc]
  simp [fsGet_fsSet, fsGet_fsErase, Ne.symm hne]

/-! ## Fingerprint Store (`checklist.go`)

`Checklist` holds an ordered list of `(path, hash)` entries, mirroring the Go
struct's `files` slice of `{path, hash string}`. -/

/-- One `(path, hash)` record of the Fingerprint Store. -/
structure Entry where
  path : String
  hash : String
deriving Repr, DecidableEq

/-- The Fingerprint Store: Go's `Checklist` struct. -/
structure Checklist where
  files : List Entry
deriving Repr, DecidableEq

/-- `Checklist.AddFile`: appends a `(path, hash)` entry. -/
def Checklist.AddFile (c : Checklist) (path hash : String) : Checklist :=
  ⟨c.files ++ [⟨path, hash⟩]⟩

/-- `Checklist.Write`: for every entry in stored order, writes
`fmt.Sprintf("%s %s", hash, path)` to the output stream.  Note the source
writes no separator after each record. -/
def Checklist.Write (c : Checklist) : String :=
  String.join (c.files.map (fun e => e.hash ++ " " ++ e.path))

/-- How a run of `ChecklistFromReader` ends in the source: the
`bufio.Reader.ReadLine` loop returns `io.EOF` at end of stream (`eof`), or
the unchecked `arr[1]` slice access panics with an index-out-of-range runtime
error on a line that `strings.Split` cut into fewer than two pieces
(`indexOutOfRange`). -/
inductive ReaderErr
  | eof
  | indexOutOfRange
deriving Repr, DecidableEq

/-- The sequence of lines `bufio.Reader.ReadLine` yields for a stream `s`
before reporting `io.EOF`: split at `'\n'`; a final empty segment (the stream
ended with a newline, or was empty) yields no extra line. -/
def readLines (s : String) : List String :=
  let parts := splitCh '\n' s
  if parts.getLastD "" = "" then parts.dropLast else parts

/-- The `ChecklistFromReader` loop body over the remaining lines, carrying the
checklist populated so far.  Faithful to the source: when `ReadLine` reports
any error — `io.EOF` included — the function returns `nil, err`, discarding
the populated checklist; each line is `strings.Split` on `" "` and
`AddFile(arr[1], arr[0])` is called (the split list is never empty, so the
`arr[0]` access cannot panic; the `arr[1]` access panics when the line holds
no space). -/
def ChecklistFromReaderAux (c : Checklist) : List String → Except ReaderErr Checklist
  | [] => .error .eof
  | line :: rest =>
    let arr := splitCh ' ' line
    if h : 1 < arr.length then
      ChecklistFromReaderAux (c.AddFile (arr.get ⟨1, h⟩) (arr.headD "")) rest
    else
      .error .indexOutOfRange

/-- `ChecklistFromReader`, on the line sequence of the input stream. -/
def ChecklistFromReader (lines : List String) : Except ReaderErr Checklist :=
  ChecklistFromReaderAux ⟨[]⟩ lines

/-- `ChecklistFromReader` applied to a raw input stream. -/
def ChecklistFromReaderString (s : String) : Except ReaderErr Checklist :=
  ChecklistFromReader (readLines s)

/-- `Checklist.Collect`: reads the file and appends `(path, md5hex bytes)`.
In the model the walk supplies each file's content directly, so the read
error branch of the source cannot fire. -/
def Checklist.Collect (md5hex : String → String) (c : Checklist)
    (path content : String) : Checklist :=
  c.AddFile path (md5hex content)

/-- The `filepath.Walk` loop of `ChecklistFromDir`: visit the listing in
order, `Collect` every entry the filter admits. -/
def ChecklistFromDirAux (md5hex : String → String) (filter : String → Bool) :
    Checklist → FS → Checklist
  | c, [] => c
  | c, (p, content) :: rest =>
    if filter p then
      ChecklistFromDirAux md5hex filter (Checklist.Collect md5hex c p content) rest
    else
      ChecklistFromDirAux md5hex filter c rest

/-- `ChecklistFromDir dir filter`: walks the directory listing `fs` and
fingerprints every file the filter admits.  `md5hex` models the external
`crypto/md5` + `encoding/hex` digest of the file's bytes. -/
def ChecklistFromDir (fs : FS) (md5hex : String → String)
    (filter : String → Bool) : Checklist :=
  ChecklistFromDirAux md5hex filter ⟨[]⟩ fs

/-- `nonHiddenFilesFilter` as the source defines it:
`strings.HasPrefix(filepath.Base(path), ".")` — note the filter returns
`true` exactly for the dot-prefixed (hidden) base names; the `os.FileInfo`
argument is ignored by the source (`_`). -/
def nonHiddenFilesFilter (p : String) : Bool :=
  startsWithDot (baseOf p)

/-- Failure of `Checklist.Diff`: `ioutil.ReadFile` failed on a stored path. -/
inductive DiffErr
  | ioError (path : String)
deriving Repr, DecidableEq

/-- The `Checklist.Diff` loop over the stored entries, threading the receiver
state (the Go method takes a pointer receiver; the source never writes to
`c.files`, and the embedding records that by passing the state through).
Re-reads each stored path in order; aborts with the error of the first
unreadable file; otherwise reports, in stored order, the paths whose
recomputed digest differs from the stored one. -/
def DiffAux (read : String → Option String) (md5hex : String → String) :
    Checklist → List Entry → Checklist × Except DiffErr (List String)
  | c, [] => (c, .ok [])
  | c, e :: rest =>
    match read e.path with
    | none => (c, .error (.ioError e.path))
    | some content =>
      match DiffAux read md5hex c rest with
      | (c2, .error er) => (c2, .error er)
      | (c2, .ok out) =>
        (c2, .ok (if md5hex content = e.hash then out else e.path :: out))

/-- `Checklist.Diff`, as a state transformer on the receiver: returns the
receiver state after the call together with the result. `read` models
`ioutil.ReadFile` on the live filesystem. -/
def Checklist.Diff (read : String → Option String) (md5hex : String → String)
    (c : Checklist) : Checklist × Except DiffErr (List String) :=
  DiffAux read md5hex c c.files

/-! ## Checklist lemmas -/

theorem ChecklistFromReaderAux_eof (c : Checklist) (lines : List String)
    (h : ∀ l ∈ lines, 1 < (splitCh ' ' l).length) :
    ChecklistFromReaderAux c lines = .error .eof := by
  induction lines generalizing c with
  | nil => rfl
  | cons line rest ih =>
    have hl := h line (List.mem_cons_self _ _)
    rw [ChecklistFromReaderAux, dif_pos hl]
    exact ih _ (fun l hlr => h l (List.mem_cons_of_mem _ hlr))

theorem ChecklistFromReaderAux_malformed (c : Checklist) (lines : List String)
    (h : ∃ l ∈ lines, ¬ 1 < (splitCh ' ' l).length) :
    ChecklistFromReaderAux c lines = .error .indexOutOfRange := by
  induction lines generalizing c with
  | nil => exact absurd h (by simp)
  | cons line rest ih =>
    by_cases hl : 1 < (splitCh ' ' line).length
    · rw [ChecklistFromReaderAux, dif_pos hl]
      refine ih _ ?_
      rcases h with ⟨l, hmem, hbad⟩
      rcases List.mem_cons.mp hmem with rfl | hmem2
      · exact absurd hl hbad
      · exact ⟨l, hmem2, hbad⟩
    · rw [ChecklistFromReaderAux, dif_neg hl]

theorem ChecklistFromDirAux_files (md5hex : String → String)
    (filter : String → Bool) (c : Checklist) (fs : FS) :
    (ChecklistFromDirAux md5hex filter c fs).files =
      c.files ++ (fs.filter (fun e => filter e.1)).map
        (fun e => ⟨e.1, md5hex e.2⟩) := by
  induction fs generalizing c with
  | nil => simp [ChecklistFromDirAux]
  | cons e rest ih =>
    by_cases he : filter e.1
    · simp [ChecklistFromDirAux, he, ih, Checklist.Collect, Checklist.AddFile,
        List.filter_cons]
    · simp [ChecklistFromDirAux, he, ih, List.filter_cons]

theorem DiffAux_fst (read : String → Option String) (md5hex : String → String)
    (c : Checklist) (l : List Entry) :
    (DiffAux read md5hex c l).1 = c := by
  induction l with
  | nil => rfl
  | cons e rest ih =>
    rw [DiffAux]
    cases read e.path with
    | none => rfl
    | some content =>
      simp only
      rcases hrest : DiffAux read md5hex c rest with ⟨c2, r⟩
      have : c2 = c := by rw [← ih, hrest]
      cases r <;> simp [this]

theorem DiffAux_snd_ok (read : String → Option String)
    (md5hex : String → String) (c : Checklist) (l : List Entry)
    (h : ∀ e ∈ l, (read e.path).isSome) :
    (DiffAux read md5hex c l).2 =
      .ok ((l.filter
        (fun e => md5hex ((read e.path).getD "") != e.hash)).map Entry.path) := by
  induction l with
  | nil => rfl
  | cons e rest ih =>
    rcases Option.isSome_iff_exists.mp (h e (List.mem_cons_self _ _)) with
      ⟨content, hc⟩
    have ihr := ih (fun x hx => h x (List.mem_cons_of_mem _ hx))
    rw [DiffAux, hc]
    simp only
    rcases hrest : DiffAux read md5hex c rest with ⟨c2, r⟩
    rw [hrest] at ihr
    simp only at ihr
    subst ihr
    by_cases heq : md5hex content = e.hash <;>
      simp [List.filter_cons, hc, heq]

theorem DiffAux_snd_error (read : String → Option String)
    (md5hex : String → String) (c : Checklist) (l : List Entry)
    (h : ∃ e ∈ l, read e.path = none) :
    ∃ p, (DiffAux read md5hex c l).2 = .error (.ioError p) := by
  induction l with
  | nil => exact absurd h (by simp)
  | cons e rest ih =>
    cases hc : read e.path with
    | none => exact ⟨e.path, by rw [DiffAux, hc]⟩
    | some content =>
      have hrest : ∃ x ∈ rest, read x.path = none := by
        rcases h with ⟨x, hmem, hx⟩
        rcases List.mem_cons.mp hmem with rfl | hmem2
        · rw [hc] at hx; cases hx
        · exact ⟨x, hmem2, hx⟩
      rcases ih hrest with ⟨p, hp⟩
      refine ⟨p, ?_⟩
      rw [DiffAux, hc]
      simp only
      rcases hr : DiffAux read md5hex c rest with ⟨c2, r⟩
      rw [hr] at hp
      simp only at hp
      subst hp
      rfl

/-! ## Claims about the Fingerprint Store -/

/-- **C1** (code bug): serializing the one-entry store `[("f.txt","abc123")]`
with `Write` yields `"abc123 f.txt"`, and parsing that stream back with
`ChecklistFromReader` does not reproduce the store: the parse returns the
`io.EOF` read error, because the source's `Write` emits no newline separator
and `ChecklistFromReader` returns `nil, err` even when the error is `io.EOF`,
so the round-trip law fails on every store. -/
theorem write_read_roundtrip_fails :
    Checklist.Write ⟨[⟨"f.txt", "abc123"⟩]⟩ = "abc123 f.txt"
    ∧ ChecklistFromReaderString "abc123 f.txt" = .error .eof :=
  ⟨by decide, rfl⟩

/-- **C6** (code bug): on every stream of well-formed records (each line
splits into at least two space-separated pieces), `ChecklistFromReader`
reaches end of stream and returns the `io.EOF` read error instead of the
populated store: the source's `if err != nil { return nil, err }` conflates
EOF with a generic read error, so parsing never terminates normally. -/
theorem eof_reported_as_failure (lines : List String)
    (h : ∀ l ∈ lines, 1 < (splitCh ' ' l).length) :
    ChecklistFromReader lines = .error .eof :=
  ChecklistFromReaderAux_eof ⟨[]⟩ lines h

/-- Witness for `eof_reported_as_failure`: a two-record well-formed stream. -/
theorem eof_reported_as_failure_witness :
    (∀ l ∈ ["aaa x.txt", "bbb y.txt"], 1 < (splitCh ' ' l).length)
    ∧ ChecklistFromReader ["aaa x.txt", "bbb y.txt"] = .error .eof :=
  ⟨by decide, eof_reported_as_failure ["aaa x.txt", "bbb y.txt"] (by decide)⟩

/-- **C7** (code bug): on every stream containing a malformed line (one that
`strings.Split` cuts into fewer than two pieces, i.e. a line with no space),
`ChecklistFromReader` neither returns a `ParseError` — no such error value
exists anywhere in the source — nor produces a store: the unchecked `arr[1]`
access panics with an index-out-of-range runtime error, modelled as
`ReaderErr.indexOutOfRange`. -/
theorem malformed_line_crashes (lines : List String)
    (h : ∃ l ∈ lines, ¬ 1 < (splitCh ' ' l).length) :
    ChecklistFromReader lines = .error .indexOutOfRange :=
  ChecklistFromReaderAux_malformed ⟨[]⟩ lines h

/-- Witness for `malformed_line_crashes`: a stream with one well-formed
record followed by a spaceless line. -/
theorem malformed_line_crashes_witness :
    (∃ l ∈ ["aaa x.txt", "zzz"], ¬ 1 < (splitCh ' ' l).length)
    ∧ ChecklistFromReader ["aaa x.txt", "zzz"] = .error .indexOutOfRange :=
  ⟨by decide, malformed_line_crashes ["aaa x.txt", "zzz"] (by decide)⟩

/-- **C8** (code bug): the post-unlock scan fingerprints exactly the paths
`nonHiddenFilesFilter` admits, and the filter as the source writes it —
`strings.HasPrefix(filepath.Base(path), ".")`, missing the negation its name
announces — admits exactly the dot-prefixed (hidden-marker) base names: on
the listing `[d/.a.gpg ↦ CIPH, d/b ↦ TEXT]` the scan fingerprints the hidden
`d/.a.gpg` and skips the plain `d/b`, the opposite of the claimed
selection. -/
theorem unlock_scan_selects_hidden_files :
    (∀ (fs : FS) (md5hex : String → String),
      (ChecklistFromDir fs md5hex nonHiddenFilesFilter).files.map Entry.path =
        (fs.map Prod.fst).filter nonHiddenFilesFilter)
    ∧ nonHiddenFilesFilter "d/.a.gpg" = true
    ∧ nonHiddenFilesFilter "d/b" = false
    ∧ ChecklistFromDir [("d/.a.gpg", "CIPH"), ("d/b", "TEXT")] (fun s => s)
        nonHiddenFilesFilter = ⟨[⟨"d/.a.gpg", "CIPH"⟩]⟩ := by
  refine ⟨fun fs md5hex => ?_, by decide, by decide, by decide⟩
  rw [ChecklistFromDir, ChecklistFromDirAux_files]
  induction fs with
  | nil => rfl
  | cons e rest ih =>
    by_cases he : nonHiddenFilesFilter e.1 <;>
      simp_all [List.filter_cons, he]

/-- **C3** (confirmed): when every stored path is readable, `Diff` returns
exactly the stored paths, in stored order, whose recomputed digest differs
from the stored digest (so every byte-identical file — same content, hence
same digest — is excluded); and when any stored path is unreadable, `Diff`
fails with an `IOError` naming a path instead of reporting changes. -/
theorem Diff_reports_exactly_changed (read : String → Option String)
    (md5hex : String → String) (c : Checklist) :
    ((∀ e ∈ c.files, (read e.path).isSome) →
      (c.Diff read md5hex).2 =
        .ok ((c.files.filter
          (fun e => md5hex ((read e.path).getD "") != e.hash)).map Entry.path))
    ∧ ((∃ e ∈ c.files, read e.path = none) →
      ∃ p, (c.Diff read md5hex).2 = .error (.ioError p)) :=
  ⟨fun h => DiffAux_snd_ok read md5hex c c.files h,
   fun h => DiffAux_snd_error read md5hex c c.files h⟩

/-- Witness for `Diff_reports_exactly_changed`: a three-file store where only
`b`'s bytes changed, and a store whose file was deleted. -/
theorem Diff_reports_exactly_changed_witness :
    ((∀ e ∈ (⟨[⟨"a", "A"⟩, ⟨"b", "B"⟩, ⟨"c", "C"⟩]⟩ : Checklist).files,
        ((fun p => if p = "a" then some "A" else
          if p = "b" then some "B2" else
          if p = "c" then some "C" else none) e.path).isSome)
      ∧ (Checklist.Diff
          (fun p => if p = "a" then some "A" else
            if p = "b" then some "B2" else
            if p = "c" then some "C" else none)
          (fun s => s) ⟨[⟨"a", "A"⟩, ⟨"b", "B"⟩, ⟨"c", "C"⟩]⟩).2 = .ok ["b"])
    ∧ ((∃ e ∈ (⟨[⟨"a", "A"⟩]⟩ : Checklist).files,
        (fun _ : String => (none : Option String)) e.path = none)
      ∧ ∃ p, (Checklist.Diff (fun _ => none) (fun s => s)
          ⟨[⟨"a", "A"⟩]⟩).2 = .error (.ioError p)) := by
  refine ⟨⟨by decide, ?_⟩, ⟨by decide, ?_⟩⟩
  · have h := (Diff_reports_exactly_changed
      (fun p => if p = "a" then some "A" else
        if p = "b" then some "B2" else
        if p = "c" then some "C" else none)
      (fun s => s) ⟨[⟨"a", "A"⟩, ⟨"b", "B"⟩, ⟨"c", "C"⟩]⟩).1 (by decide)
    rw [h]
    rfl
  · exact (Diff_reports_exactly_changed (fun _ => none) (fun s => s)
      ⟨[⟨"a", "A"⟩]⟩).2 ⟨⟨"a", "A"⟩, by decide, rfl⟩

/-- **C10** (confirmed): `Diff` leaves the receiver unchanged — the store
state returned by the state-passing embedding of the pointer-receiver method
equals the input store, whether the result is a change list or an `IOError` —
so a later `Write` serializes the same entries. -/
theorem Diff_preserves_store (read : String → Option String)
    (md5hex : String → String) (c : Checklist) :
    (c.Diff read md5hex).1 = c
    ∧ (c.Diff read md5hex).1.Write = c.Write := by
  have h1 : (c.Diff read md5hex).1 = c := DiffAux_fst read md5hex c c.files
  exact ⟨h1, by rw [h1]⟩

/-! ## File Pairs and the Lock protocol

`FilePair` models the unit of work: an encrypted artifact path and the
plaintext path derived by stripping the encrypted-file suffix.  (The second
revision's Go struct also carries a `hidden` flag set during the walk, and
the first revision's a `plainHash`; neither is consulted by the operations
modelled here.)

`Journal.Lock`'s per-pair loop is embedded as a trace of filesystem-effect
actions: `Reset` (`mv .base → base`, restoring the hidden ciphertext's
visibility), `Encrypt` (the gpg capability writing fresh ciphertext of the
plaintext file to the encrypted path), and `RemoveFootprint` (`rm .base`).
The source's `hasChanged(file)` membership test (written without a field
selector, against a change set of checklist paths) is modelled as testing
the pair's plaintext path, per the surrounding revision's intent; the two
`range` keywords missing from the source's `for` loops are read as written.
An encryption failure aborts the loop; `RemoveFootprint` is modelled as
succeeding (its failure would likewise abort the loop). -/

/-- One logical document: encrypted artifact path and plaintext path. -/
structure FilePair where
  enc : String
  plain : String
deriving Repr, DecidableEq

/-- A filesystem effect performed by `Journal.Lock`. -/
inductive LockAction
  | reset (enc : String)
  | encrypt (plain enc : String)
  | removeFootprint (enc : String)
deriving Repr, DecidableEq

/-- Failure of `Journal.Lock`: the encryption capability reported an error. -/
inductive LockErr
  | encryptFailed (enc : String)
deriving Repr, DecidableEq

/-- The `Journal.Lock` loop over the discovered File Pairs: an unchanged pair
is `Reset` (and the loop continues); a changed pair is re-encrypted and its
footprint removed; an encryption failure aborts immediately, returning the
actions performed so far. `changes` is the change set computed by
`Checklist.Diff`, `encOk` whether the external gpg invocation succeeds. -/
def lockLoop (changes : List String) (encOk : FilePair → Bool) :
    List FilePair → List LockAction × Option LockErr
  | [] => ([], none)
  | fp :: rest =>
    if fp.plain ∈ changes then
      if encOk fp then
        (.encrypt fp.plain fp.enc :: .removeFootprint fp.enc ::
          (lockLoop changes encOk rest).1, (lockLoop changes encOk rest).2)
      else ([], some (.encryptFailed fp.enc))
    else
      (.reset fp.enc :: (lockLoop changes encOk rest).1,
        (lockLoop changes encOk rest).2)

/-- Filesystem semantics of one `LockAction`.  `cipher` models the gpg
encryption capability on file contents. -/
def applyAction (cipher : String → String) (fs : FS) : LockAction → FS
  | .reset enc => fsMove fs (hiddenPath enc) enc
  | .encrypt plain enc => fsSet fs enc (cipher ((fsGet fs plain).getD ""))
  | .removeFootprint enc => fsErase fs (hiddenPath enc)

/-- Filesystem semantics of an action trace, applied in order. -/
def applyActions (cipher : String → String) : FS → List LockAction → FS
  | fs, [] => fs
  | fs, a :: tr => applyActions cipher (applyAction cipher fs a) tr

/-- `Journal.Lock` on a filesystem: run the loop and apply its actions. -/
def runLock (cipher : String → String) (changes : List String)
    (encOk : FilePair → Bool) (fs : FS) (files : List FilePair) :
    FS × Option LockErr :=
  let r := lockLoop changes encOk files
  (applyActions cipher fs r.1, r.2)

/-- The paths whose content an action can create, change or remove. -/
def touched : LockAction → List String
  | .reset enc => [hiddenPath enc, enc]
  | .encrypt _ enc => [enc]
  | .removeFootprint enc => [hiddenPath enc]

theorem fsGet_applyAction_frame (cipher : String → String) (fs : FS)
    (a : LockAction) (p : String) (h : p ∉ touched a) :
    fsGet (applyAction cipher fs a) p = fsGet fs p := by
  cases a with
  | reset enc =>
    simp only [touched, List.mem_cons, List.mem_singleton, not_or] at h
    exact fsGet_fsMove_of_ne fs _ _ p h.1 h.2.1
  | encrypt plain enc =>
    simp only [touched, List.mem_singleton] at h
    rw [applyAction, fsGet_fsSet, if_neg (fun he => h he.symm)]
  | removeFootprint enc =>
    simp only [touched, List.mem_singleton] at h
    rw [applyAction, fsGet_fsErase, if_neg (fun he => h he.symm)]

theorem fsGet_applyActions_frame (cipher : String → String) (p : String) :
    ∀ (tr : List LockAction) (fs : FS), (∀ a ∈ tr, p ∉ touched a) →
      fsGet (applyActions cipher fs tr) p = fsGet fs p := by
  intro tr
  induction tr with
  | nil => intro fs _; rfl
  | cons a tr ih =>
    intro fs h
    rw [applyActions, ih _ (fun x hx => h x (List.mem_cons_of_mem _ hx)),
      fsGet_applyAction_frame cipher fs a p (h a (List.mem_cons_self _ _))]

/-- Every action in a `lockLoop` trace belongs to some pair of the input
list (whether or not the loop aborted). -/
theorem lockLoop_action_mem (changes : List String) (encOk : FilePair → Bool) :
    ∀ (files : List FilePair) (a : LockAction),
      a ∈ (lockLoop changes encOk files).1 →
      ∃ g ∈ files, a = .reset g.enc ∨ a = .encrypt g.plain g.enc ∨
        a = .removeFootprint g.enc := by
  intro files
  induction files with
  | nil => intro a ha; cases ha
  | cons fp rest ih =>
    intro a ha
    by_cases hchg : fp.plain ∈ changes
    · by_cases hok : encOk fp
      · rw [lockLoop, if_pos hchg, if_pos hok] at ha
        rcases List.mem_cons.mp ha with rfl | ha2
        · exact ⟨fp, List.mem_cons_self _ _, Or.inr (Or.inl rfl)⟩
        · rcases List.mem_cons.mp ha2 with rfl | ha3
          · exact ⟨fp, List.mem_cons_self _ _, Or.inr (Or.inr rfl)⟩
          · rcases ih a ha3 with ⟨g, hg, hform⟩
            exact ⟨g, List.mem_cons_of_mem _ hg, hform⟩
      · rw [lockLoop, if_pos hchg, if_neg hok] at ha
        cases ha
    · rw [lockLoop, if_neg hchg] at ha
      rcases List.mem_cons.mp ha with rfl | ha2
      · exact ⟨fp, List.mem_cons_self _ _, Or.inl rfl⟩
      · rcases ih a ha2 with ⟨g, hg, hform⟩
        exact ⟨g, List.mem_cons_of_mem _ hg, hform⟩

/-- The paths an action of a pair `g` can touch are `g.enc` and
`hiddenPath g.enc`. -/
theorem touched_subset (g : FilePair) (a : LockAction)
    (hform : a = .reset g.enc ∨ a = .encrypt g.plain g.enc ∨
      a = .removeFootprint g.enc) (p : String) (hp : p ∈ touched a) :
    p = g.enc ∨ p = hiddenPath g.enc := by
  rcases hform with rfl | rfl | rfl <;>
    simp only [touched, List.mem_cons, List.mem_singleton] at hp <;> tauto

/-- Final-state characterization of a successful `Lock` run: over File Pairs
with pairwise separated paths whose hidden artifacts all exist, every pair's
hidden marker is gone, its plaintext file is untouched, and its encrypted
path holds the fresh ciphertext of its plaintext (changed pair) or the
original hidden ciphertext moved back (unchanged pair). -/
theorem runLock_final_get (cipher : String → String) (changes : List String)
    (encOk : FilePair → Bool) (files : List FilePair) :
    ∀ (fs : FS),
      files.Nodup →
      (∀ a ∈ files, ∀ b ∈ files, a.enc = b.enc → a = b) →
      (∀ a ∈ files, ∀ b ∈ files, hiddenPath a.enc = hiddenPath b.enc → a = b) →
      (∀ a ∈ files, ∀ b ∈ files, a.plain ≠ b.enc ∧ a.plain ≠ hiddenPath b.enc ∧
        a.enc ≠ hiddenPath b.enc) →
      (∀ g ∈ files, (fsGet fs (hiddenPath g.enc)).isSome) →
      (lockLoop changes encOk files).2 = none →
      ∀ fp ∈ files,
        fsGet (applyActions cipher fs (lockLoop changes encOk files).1)
          (hiddenPath fp.enc) = none
        ∧ fsGet (applyActions cipher fs (lockLoop changes encOk files).1)
            fp.plain = fsGet fs fp.plain
        ∧ fsGet (applyActions cipher fs (lockLoop changes encOk files).1)
            fp.enc =
          (if fp.plain ∈ changes then
            some (cipher ((fsGet fs fp.plain).getD ""))
          else fsGet fs (hiddenPath fp.enc)) := by
  induction files with
  | nil =>
    intro fs _ _ _ _ _ _ fp hfp
    cases hfp
  | cons hd rest ih =>
    intro fs hNd hE hH hX hhid hrun fp hfp
    have hdmem : hd ∈ hd :: rest := List.mem_cons_self _ _
    have hnotin : hd ∉ rest := (List.nodup_cons.mp hNd).1
    obtain ⟨hpe, hph, heh⟩ := hX hd hdmem hd hdmem
    -- distinctness of the head pair's paths from any tail pair's touched set
    have hsep : ∀ p, p = hd.enc ∨ p = hd.plain ∨ p = hiddenPath hd.enc →
        ∀ g ∈ rest, p ≠ g.enc ∧ p ≠ hiddenPath g.enc := by
      intro p hp g hg
      have hgmem : g ∈ hd :: rest := List.mem_cons_of_mem _ hg
      have hgne : hd ≠ g := fun he => hnotin (he ▸ hg)
      rcases hp with rfl | rfl | rfl
      · exact ⟨fun he => hgne (hE hd hdmem g hgmem he),
          (hX hd hdmem g hgmem).2.2⟩
      · exact ⟨(hX hd hdmem g hgmem).1, (hX hd hdmem g hgmem).2.1⟩
      · exact ⟨fun he => (hX g hgmem hd hdmem).2.2 he.symm,
          fun he => hgne (hH hd hdmem g hgmem he)⟩
    -- frame: the tail trace does not touch a path distinct from every tail
    -- pair's touched set
    have hframe : ∀ (p : String) (fs1 : FS),
        (∀ g ∈ rest, p ≠ g.enc ∧ p ≠ hiddenPath g.enc) →
        fsGet (applyActions cipher fs1 (lockLoop changes encOk rest).1) p =
          fsGet fs1 p := by
      intro p fs1 hp
      refine fsGet_applyActions_frame cipher p _ fs1 (fun a ha hpa => ?_)
      rcases lockLoop_action_mem changes encOk rest a ha with ⟨g, hg, hform⟩
      rcases touched_subset g a hform p hpa with he | he
      · exact (hp g hg).1 he
      · exact (hp g hg).2 he
    by_cases hchg : hd.plain ∈ changes
    · -- changed head: encrypt then remove footprint
      have hok : encOk hd = true := by
        by_contra hok
        rw [lockLoop, if_pos hchg, if_neg hok] at hrun
        cases hrun
      rw [lockLoop, if_pos hchg, if_pos hok] at hrun ⊢
      simp only at hrun
      simp only [applyActions, applyAction]
      have hv : ∀ p, fsGet
          (fsErase (fsSet fs hd.enc (cipher ((fsGet fs hd.plain).getD "")))
            (hiddenPath hd.enc)) p =
          (if hiddenPath hd.enc = p then none
           else if hd.enc = p then some (cipher ((fsGet fs hd.plain).getD ""))
           else fsGet fs p) := by
        intro p
        rw [fsGet_fsErase, fsGet_fsSet]
      rcases List.mem_cons.mp hfp with rfl | hfp2
      · refine ⟨?_, ?_, ?_⟩
        · rw [hframe _ _ (hsep _ (Or.inr (Or.inr rfl))), hv,
            if_pos rfl]
        · rw [hframe _ _ (hsep _ (Or.inr (Or.inl rfl))), hv,
            if_neg (fun he => hph he.symm), if_neg (fun he => hpe he.symm)]
        · rw [hframe _ _ (hsep _ (Or.inl rfl)), hv,
            if_neg (fun he => heh he.symm), if_pos rfl, if_pos hchg]
      · -- tail pair: apply the induction hypothesis on the updated filesystem
        have hE2 : ∀ a ∈ rest, ∀ b ∈ rest, a.enc = b.enc → a = b :=
          fun a ha b hb => hE a (List.mem_cons_of_mem _ ha) b
            (List.mem_cons_of_mem _ hb)
        have hH2 : ∀ a ∈ rest, ∀ b ∈ rest,
            hiddenPath a.enc = hiddenPath b.enc → a = b :=
          fun a ha b hb => hH a (List.mem_cons_of_mem _ ha) b
            (List.mem_cons_of_mem _ hb)
        have hX2 : ∀ a ∈ rest, ∀ b ∈ rest, a.plain ≠ b.enc ∧
            a.plain ≠ hiddenPath b.enc ∧ a.enc ≠ hiddenPath b.enc :=
          fun a ha b hb => hX a (List.mem_cons_of_mem _ ha) b
            (List.mem_cons_of_mem _ hb)
        have hgone : ∀ g ∈ rest, ∀ p, p = g.enc ∨ p = g.plain ∨
            p = hiddenPath g.enc →
            fsGet (fsErase (fsSet fs hd.enc
              (cipher ((fsGet fs hd.plain).getD ""))) (hiddenPath hd.enc)) p =
              fsGet fs p := by
          intro g hg p hp
          have hgmem : g ∈ hd :: rest := List.mem_cons_of_mem _ hg
          have hgne : hd ≠ g := fun he => hnotin (he ▸ hg)
          rw [hv]
          rcases hp with rfl | rfl | rfl
          · rw [if_neg (fun he => (hX g hgmem hd hdmem).2.2 he.symm),
              if_neg (fun he => hgne (hE hd hdmem g hgmem he))]
          · rw [if_neg (fun he => (hX g hgmem hd hdmem).2.1 he.symm),
              if_neg (fun he => (hX g hgmem hd hdmem).1 he.symm)]
          · rw [if_neg (fun he => hgne (hH hd hdmem g hgmem he)),
              if_neg (fun he => (hX hd hdmem g hgmem).2.2 he)]
        have hhid2 : ∀ g ∈ rest, (fsGet
            (fsErase (fsSet fs hd.enc (cipher ((fsGet fs hd.plain).getD "")))
              (hiddenPath hd.enc)) (hiddenPath g.enc)).isSome := by
          intro g hg
          rw [hgone g hg _ (Or.inr (Or.inr rfl))]
          exact hhid g (List.mem_cons_of_mem _ hg)
        have ihr := ih _ (List.Nodup.of_cons hNd) hE2 hH2 hX2 hhid2 hrun fp hfp2
        rw [hgone fp hfp2 _ (Or.inr (Or.inr rfl)),
          hgone fp hfp2 _ (Or.inr (Or.inl rfl))] at ihr
        exact ihr
    · -- unchanged head: reset (un-hide) the encrypted artifact
      rw [lockLoop, if_neg hchg] at hrun ⊢
      simp only at hrun
      simp only [applyActions, applyAction]
      obtain ⟨w, hw⟩ := Option.isSome_iff_exists.mp (hhid hd hdmem)
      have hv : ∀ p, fsGet (fsMove fs (hiddenPath hd.enc) hd.enc) p =
          (if hiddenPath hd.enc = p then none
           else if hd.enc = p then some w
           else fsGet fs p) := by
        intro p
        by_cases h1 : hiddenPath hd.enc = p
        · rw [if_pos h1, ← h1]
          exact fsGet_fsMove_src fs _ _ w hw (fun he => heh he.symm)
        · by_cases h2 : hd.enc = p
          · rw [if_neg h1, if_pos h2, ← h2]
            exact fsGet_fsMove_dst fs _ _ w hw
          · rw [if_neg h1, if_neg h2]
            exact fsGet_fsMove_of_ne fs _ _ p (fun he => h1 he.symm)
              (fun he => h2 he.symm)
      rcases List.mem_cons.mp hfp with rfl | hfp2
      · refine ⟨?_, ?_, ?_⟩
        · rw [hframe _ _ (hsep _ (Or.inr (Or.inr rfl))), hv, if_pos rfl]
        · rw [hframe _ _ (hsep _ (Or.inr (Or.inl rfl))), hv,
            if_neg (fun he => hph he.symm), if_neg (fun he => hpe he.symm)]
        · rw [hframe _ _ (hsep _ (Or.inl rfl)), hv,
            if_neg (fun he => heh he.symm), if_pos rfl, if_neg hchg, hw]
      · have hE2 : ∀ a ∈ rest, ∀ b ∈ rest, a.enc = b.enc → a = b :=
          fun a ha b hb => hE a (List.mem_cons_of_mem _ ha) b
            (List.mem_cons_of_mem _ hb)
        have hH2 : ∀ a ∈ rest, ∀ b ∈ rest,
            hiddenPath a.enc = hiddenPath b.enc → a = b :=
          fun a ha b hb => hH a (List.mem_cons_of_mem _ ha) b
            (List.mem_cons_of_mem _ hb)
        have hX2 : ∀ a ∈ rest, ∀ b ∈ rest, a.plain ≠ b.enc ∧
            a.plain ≠ hiddenPath b.enc ∧ a.enc ≠ hiddenPath b.enc :=
          fun a ha b hb => hX a (List.mem_cons_of_mem _ ha) b
            (List.mem_cons_of_mem _ hb)
        have hgone : ∀ g ∈ rest, ∀ p, p = g.enc ∨ p = g.plain ∨
            p = hiddenPath g.enc →
            fsGet (fsMove fs (hiddenPath hd.enc) hd.enc) p = fsGet fs p := by
          intro g hg p hp
          have hgmem : g ∈ hd :: rest := List.mem_cons_of_mem _ hg
          have hgne : hd ≠ g := fun he => hnotin (he ▸ hg)
          rw [hv]
          rcases hp with rfl | rfl | rfl
          · rw [if_neg (fun he => (hX g hgmem hd hdmem).2.2 he.symm),
              if_neg (fun he => hgne (hE hd hdmem g hgmem he))]
          · rw [if_neg (fun he => (hX g hgmem hd hdmem).2.1 he.symm),
              if_neg (fun he => (hX g hgmem hd hdmem).1 he.symm)]
          · rw [if_neg (fun he => hgne (hH hd hdmem g hgmem he)),
              if_neg (fun he => (hX hd hdmem g hgmem).2.2 he)]
        have hhid2 : ∀ g ∈ rest,
            (fsGet (fsMove fs (hiddenPath hd.enc) hd.enc)
              (hiddenPath g.enc)).isSome := by
          intro g hg
          rw [hgone g hg _ (Or.inr (Or.inr rfl))]
          exact hhid g (List.mem_cons_of_mem _ hg)
        have ihr := ih _ (List.Nodup.of_cons hNd) hE2 hH2 hX2 hhid2 hrun fp hfp2
        rw [hgone fp hfp2 _ (Or.inr (Or.inr rfl)),
          hgone fp hfp2 _ (Or.inr (Or.inl rfl))] at ihr
        exact ihr

/-- In a successful run, every unchanged pair's `Reset` action is in the
trace. -/
theorem lockLoop_reset_mem (changes : List String) (encOk : FilePair → Bool) :
    ∀ (files : List FilePair) (fp : FilePair), fp ∈ files →
      (lockLoop changes encOk files).2 = none → fp.plain ∉ changes →
      LockAction.reset fp.enc ∈ (lockLoop changes encOk files).1 := by
  intro files
  induction files with
  | nil => intro fp hfp; cases hfp
  | cons hd rest ih =>
    intro fp hfp hrun hnc
    by_cases hchg : hd.plain ∈ changes
    · have hok : encOk hd = true := by
        by_contra hok
        rw [lockLoop, if_pos hchg, if_neg hok] at hrun
        cases hrun
      rw [lockLoop, if_pos hchg, if_pos hok] at hrun ⊢
      simp only at hrun
      rcases List.mem_cons.mp hfp with rfl | hfp2
      · exact absurd hchg hnc
      · exact List.mem_cons_of_mem _ (List.mem_cons_of_mem _ (ih fp hfp2 hrun hnc))
    · rw [lockLoop, if_neg hchg] at hrun ⊢
      simp only at hrun
      rcases List.mem_cons.mp hfp with rfl | hfp2
      · exact List.mem_cons_self _ _
      · exact List.mem_cons_of_mem _ (ih fp hfp2 hrun hnc)

/-- Every `Encrypt` action in a trace (successful or aborted) comes from a
pair whose plaintext path is in the change set. -/
theorem lockLoop_encrypt_mem (changes : List String) (encOk : FilePair → Bool) :
    ∀ (files : List FilePair) (p e : String),
      LockAction.encrypt p e ∈ (lockLoop changes encOk files).1 →
      ∃ g ∈ files, g.plain = p ∧ g.enc = e ∧ g.plain ∈ changes := by
  intro files
  induction files with
  | nil => intro p e h; cases h
  | cons hd rest ih =>
    intro p e h
    by_cases hchg : hd.plain ∈ changes
    · by_cases hok : encOk hd
      · rw [lockLoop, if_pos hchg, if_pos hok] at h
        rcases List.mem_cons.mp h with heq | h2
        · injection heq with h1 h2
          exact ⟨hd, List.mem_cons_self _ _, h1.symm, h2.symm, hchg⟩
        · rcases List.mem_cons.mp h2 with heq | h3
          · cases heq
          · rcases ih p e h3 with ⟨g, hg, hrest⟩
            exact ⟨g, List.mem_cons_of_mem _ hg, hrest⟩
      · rw [lockLoop, if_pos hchg, if_neg hok] at h
        cases h
    · rw [lockLoop, if_neg hchg] at h
      rcases List.mem_cons.mp h with heq | h2
      · cases heq
      · rcases ih p e h2 with ⟨g, hg, hrest⟩
        exact ⟨g, List.mem_cons_of_mem _ hg, hrest⟩

/-- In a successful run, every changed pair's `Encrypt` action is in the
trace, followed (later in the trace) by its `RemoveFootprint` action. -/
theorem lockLoop_changed_sublist (changes : List String)
    (encOk : FilePair → Bool) :
    ∀ (files : List FilePair) (fp : FilePair), fp ∈ files →
      (lockLoop changes encOk files).2 = none → fp.plain ∈ changes →
      List.Sublist [LockAction.encrypt fp.plain fp.enc,
        LockAction.removeFootprint fp.enc] (lockLoop changes encOk files).1 := by
  intro files
  induction files with
  | nil => intro fp hfp; cases hfp
  | cons hd rest ih =>
    intro fp hfp hrun hc
    by_cases hchg : hd.plain ∈ changes
    · have hok : encOk hd = true := by
        by_contra hok
        rw [lockLoop, if_pos hchg, if_neg hok] at hrun
        cases hrun
      rw [lockLoop, if_pos hchg, if_pos hok] at hrun ⊢
      simp only at hrun
      rcases List.mem_cons.mp hfp with rfl | hfp2
      · exact List.Sublist.cons₂ _ (List.Sublist.cons₂ _ (List.nil_sublist _))
      · exact List.Sublist.cons _ (List.Sublist.cons _ (ih fp hfp2 hrun hc))
    · rw [lockLoop, if_neg hchg] at hrun ⊢
      simp only at hrun
      rcases List.mem_cons.mp hfp with rfl | hfp2
      · exact absurd hc hchg
      · exact List.Sublist.cons _ (ih fp hfp2 hrun hc)

/-- **C2** (confirmed): in a successful `Lock` run over path-separated File
Pairs with their hidden artifacts present, an unchanged pair (plaintext path
not in the `Diff` change set) gets its `Reset` (un-hide) action, no `Encrypt`
action in the whole trace mentions its plaintext or its encrypted path, and
its encrypted path ends up holding the original hidden ciphertext; a changed
pair gets its `Encrypt` action and, after it, its `RemoveFootprint` action,
its encrypted path ends up holding the fresh ciphertext of its plaintext,
and its hidden marker is gone. -/
theorem Lock_selective_reencryption (cipher : String → String)
    (changes : List String) (encOk : FilePair → Bool) (files : List FilePair)
    (fs : FS) (fp : FilePair)
    (hNd : files.Nodup)
    (hP : ∀ a ∈ files, ∀ b ∈ files, a.plain = b.plain → a = b)
    (hE : ∀ a ∈ files, ∀ b ∈ files, a.enc = b.enc → a = b)
    (hH : ∀ a ∈ files, ∀ b ∈ files, hiddenPath a.enc = hiddenPath b.enc → a = b)
    (hX : ∀ a ∈ files, ∀ b ∈ files, a.plain ≠ b.enc ∧
      a.plain ≠ hiddenPath b.enc ∧ a.enc ≠ hiddenPath b.enc)
    (hhid : ∀ g ∈ files, (fsGet fs (hiddenPath g.enc)).isSome)
    (hrun : (lockLoop changes encOk files).2 = none)
    (hfp : fp ∈ files) :
    (fp.plain ∉ changes →
      LockAction.reset fp.enc ∈ (lockLoop changes encOk files).1
      ∧ (∀ p e, LockAction.encrypt p e ∈ (lockLoop changes encOk files).1 →
          p ≠ fp.plain ∧ e ≠ fp.enc)
      ∧ fsGet (runLock cipher changes encOk fs files).1 fp.enc =
          fsGet fs (hiddenPath fp.enc))
    ∧ (fp.plain ∈ changes →
      List.Sublist [LockAction.encrypt fp.plain fp.enc,
        LockAction.removeFootprint fp.enc] (lockLoop changes encOk files).1
      ∧ fsGet (runLock cipher changes encOk fs files).1 fp.enc =
          some (cipher ((fsGet fs fp.plain).getD ""))
      ∧ fsGet (runLock cipher changes encOk fs files).1 (hiddenPath fp.enc)
          = none) := by
  have hchar := runLock_final_get cipher changes encOk files fs hNd hE hH hX
    hhid hrun fp hfp
  constructor
  · intro hnc
    refine ⟨lockLoop_reset_mem changes encOk files fp hfp hrun hnc,
      fun p e hmem => ?_, ?_⟩
    · rcases lockLoop_encrypt_mem changes encOk files p e hmem with
        ⟨g, hg, hgp, hge, hgc⟩
      constructor
      · intro hpp
        exact hnc (by rw [← hP g hg fp hfp (hgp.trans hpp)] at hnc ⊢; exact hgc)
      · intro hee
        exact hnc (by rw [← hE g hg fp hfp (hge.trans hee)] at hnc ⊢; exact hgc)
    · have h3 := hchar.2.2
      rw [if_neg hnc] at h3
      exact h3
  · intro hc
    refine ⟨lockLoop_changed_sublist changes encOk files fp hfp hrun hc,
      ?_, hchar.1⟩
    have h3 := hchar.2.2
    rw [if_pos hc] at h3
    exact h3

/-- Witness for `Lock_selective_reencryption`: two pairs under `d`, only
`d/b`'s content changed; instantiated once for the unchanged pair `d/a.gpg`
and once for the changed pair `d/b.gpg`. -/
theorem Lock_selective_reencryption_witness :
    ((⟨"d/a.gpg", "d/a"⟩ : FilePair).plain ∉ ["d/b"]
      ∧ LockAction.reset "d/a.gpg" ∈
          (lockLoop ["d/b"] (fun _ => true)
            [⟨"d/a.gpg", "d/a"⟩, ⟨"d/b.gpg", "d/b"⟩]).1
      ∧ fsGet (runLock (fun s => String.append "E" s) ["d/b"] (fun _ => true)
          [("d/a", "A"), ("d/b", "B2"), ("d/.a.gpg", "CA"), ("d/.b.gpg", "CB")]
          [⟨"d/a.gpg", "d/a"⟩, ⟨"d/b.gpg", "d/b"⟩]).1 "d/a.gpg" = some "CA")
    ∧ ((⟨"d/b.gpg", "d/b"⟩ : FilePair).plain ∈ ["d/b"]
      ∧ fsGet (runLock (fun s => String.append "E" s) ["d/b"] (fun _ => true)
          [("d/a", "A"), ("d/b", "B2"), ("d/.a.gpg", "CA"), ("d/.b.gpg", "CB")]
          [⟨"d/a.gpg", "d/a"⟩, ⟨"d/b.gpg", "d/b"⟩]).1 "d/b.gpg" = some "EB2"
      ∧ fsGet (runLock (fun s => String.append "E" s) ["d/b"] (fun _ => true)
          [("d/a", "A"), ("d/b", "B2"), ("d/.a.gpg", "CA"), ("d/.b.gpg", "CB")]
          [⟨"d/a.gpg", "d/a"⟩, ⟨"d/b.gpg", "d/b"⟩]).1 "d/.b.gpg" = none) := by
  have hu := (Lock_selective_reencryption (fun s => String.append "E" s)
    ["d/b"] (fun _ => true) [⟨"d/a.gpg", "d/a"⟩, ⟨"d/b.gpg", "d/b"⟩]
    [("d/a", "A"), ("d/b", "B2"), ("d/.a.gpg", "CA"), ("d/.b.gpg", "CB")]
    ⟨"d/a.gpg", "d/a"⟩ (by decide) (by decide) (by decide) (by decide)
    (by decide) (by decide) (by decide) (by decide)).1 (by decide)
  have hcw := (Lock_selective_reencryption (fun s => String.append "E" s)
    ["d/b"] (fun _ => true) [⟨"d/a.gpg", "d/a"⟩, ⟨"d/b.gpg", "d/b"⟩]
    [("d/a", "A"), ("d/b", "B2"), ("d/.a.gpg", "CA"), ("d/.b.gpg", "CB")]
    ⟨"d/b.gpg", "d/b"⟩ (by decide) (by decide) (by decide) (by decide)
    (by decide) (by decide) (by decide) (by decide)).2 (by decide)
  refine ⟨⟨by decide, hu.1, ?_⟩, ⟨by decide, ?_, ?_⟩⟩
  · have h := hu.2.2
    rw [h]
    decide
  · have h := hcw.2.1
    rw [h]
    decide
  · exact hcw.2.2

/-- **C5** (counterexample): a successful `Lock` run — one pair, unchanged,
hidden ciphertext present — terminates without error, yet the plaintext file
`d2/a` is still on disk afterwards: `Journal.Lock` never removes plaintext
files, so "no plaintext files … remain under the journal root" is false. -/
theorem Lock_leaves_plaintext_counterexample :
    (runLock (fun s => s) [] (fun _ => true)
      [("d2/a", "PLAIN"), ("d2/.a.gpg", "CIPH")] [⟨"d2/a.gpg", "d2/a"⟩]).2
      = none
    ∧ fsGet (runLock (fun s => s) [] (fun _ => true)
      [("d2/a", "PLAIN"), ("d2/.a.gpg", "CIPH")] [⟨"d2/a.gpg", "d2/a"⟩]).1
      "d2/a" = some "PLAIN" :=
  ⟨rfl, by decide⟩

/-- **C5** (amended, proved): after a successful `Lock` over path-separated
File Pairs whose hidden artifacts exist, every pair has exactly one visible
encrypted artifact — the encrypted path is populated (original ciphertext if
unchanged, fresh ciphertext if changed) and the hidden marker is gone — and
no hidden-marker files of the pairs remain; but the plaintext files are not
removed: each pair's plaintext path holds exactly what it held before
`Lock`. -/
theorem Lock_postcondition (cipher : String → String) (changes : List String)
    (encOk : FilePair → Bool) (files : List FilePair) (fs : FS)
    (hNd : files.Nodup)
    (hE : ∀ a ∈ files, ∀ b ∈ files, a.enc = b.enc → a = b)
    (hH : ∀ a ∈ files, ∀ b ∈ files, hiddenPath a.enc = hiddenPath b.enc → a = b)
    (hX : ∀ a ∈ files, ∀ b ∈ files, a.plain ≠ b.enc ∧
      a.plain ≠ hiddenPath b.enc ∧ a.enc ≠ hiddenPath b.enc)
    (hhid : ∀ g ∈ files, (fsGet fs (hiddenPath g.enc)).isSome)
    (hrun : (lockLoop changes encOk files).2 = none) :
    ∀ fp ∈ files,
      (fsGet (runLock cipher changes encOk fs files).1 fp.enc).isSome
      ∧ fsGet (runLock cipher changes encOk fs files).1 (hiddenPath fp.enc)
          = none
      ∧ fsGet (runLock cipher changes encOk fs files).1 fp.plain
          = fsGet fs fp.plain := by
  intro fp hfp
  have h := runLock_final_get cipher changes encOk files fs hNd hE hH hX
    hhid hrun fp hfp
  refine ⟨?_, h.1, h.2.1⟩
  simp only [runLock]
  by_cases hc : fp.plain ∈ changes
  · have h3 := h.2.2
    rw [if_pos hc] at h3
    rw [h3]
    rfl
  · have h3 := h.2.2
    rw [if_neg hc] at h3
    rw [h3]
    exact hhid fp hfp

/-- Witness for `Lock_postcondition`: one unchanged pair under `e`. -/
theorem Lock_postcondition_witness :
    (fsGet (runLock (fun s => s) [] (fun _ => true)
      [("e/x", "X"), ("e/.x.gpg", "CX")] [⟨"e/x.gpg", "e/x"⟩]).1
      "e/x.gpg").isSome
    ∧ fsGet (runLock (fun s => s) [] (fun _ => true)
      [("e/x", "X"), ("e/.x.gpg", "CX")] [⟨"e/x.gpg", "e/x"⟩]).1
      (hiddenPath "e/x.gpg") = none
    ∧ fsGet (runLock (fun s => s) [] (fun _ => true)
      [("e/x", "X"), ("e/.x.gpg", "CX")] [⟨"e/x.gpg", "e/x"⟩]).1
      "e/x" = fsGet [("e/x", "X"), ("e/.x.gpg", "CX")] "e/x" :=
  Lock_postcondition (fun s => s) [] (fun _ => true) [⟨"e/x.gpg", "e/x"⟩]
    [("e/x", "X"), ("e/.x.gpg", "CX")] (by decide) (by decide) (by decide)
    (by decide) (by decide) (by decide) ⟨"e/x.gpg", "e/x"⟩ (by decide)

/-! ## The Unlock protocol, two revisions

Both observed revisions of `Journal.Unlock` decrypt every File Pair and then
persist a checklist to the `.check` file.  The embedding tracks the
dimension claim C4 is about: the on-disk state of the checklist file and
whether the operation was finalized (buffer flushed and file closed).  The
footprint renames of the sequential revision and the plaintext files are
outside this state; `content` abstracts the serialized checklist text that a
fully successful run persists; `decOk` is whether the external gpg
decryption succeeds on a pair.

* Sequential revision (second file revision): the decrypt + `LeaveFootprint`
  loop runs first and returns on the first failure — before
  `os.Create(.check)` is ever reached — and only a fully successful run
  creates, writes, flushes and closes the checklist file.
* Pipelined revision (first file revision): `os.Create(.check)` runs in the
  main goroutine before any pair is enqueued for decryption, creating the
  file and truncating any previous contents; a decryption failure makes a
  worker call `os.Exit(1)`, so the created, truncated file remains and the
  buffered writer is never flushed nor the completion `WaitGroup` drained;
  only a fully successful run flushes and closes. -/

/-- On-disk state of the `.check` file (`none` = absent) plus whether the
run finalized it (flushed and closed after all records were received). -/
structure CheckState where
  check : Option String
  finalized : Bool
deriving Repr, DecidableEq

/-- Failure of `Journal.Unlock`: the external gpg decryption failed. -/
inductive UnlockErr
  | decryptFailed (enc : String)
deriving Repr, DecidableEq

/-- The decrypt loop over the File Pairs: first failure wins. -/
def unlockLoop (decOk : FilePair → Bool) : List FilePair → Option UnlockErr
  | [] => none
  | fp :: rest =>
    if decOk fp then unlockLoop decOk rest
    else some (.decryptFailed fp.enc)

/-- The sequential revision of `Journal.Unlock`, projected onto the
checklist-file state. -/
def seqUnlock (decOk : FilePair → Bool) (files : List FilePair)
    (st : CheckState) (content : String) : CheckState × Option UnlockErr :=
  match unlockLoop decOk files with
  | some e => (st, some e)
  | none => ({ check := some content, finalized := true }, none)

/-- The pipelined revision of `Journal.Unlock`, projected onto the
checklist-file state: the file is created (truncated) before the decrypt
pipeline runs. -/
def pipeUnlock (decOk : FilePair → Bool) (files : List FilePair)
    (st : CheckState) (content : String) : CheckState × Option UnlockErr :=
  let stCreated : CheckState := { check := some "", finalized := false }
  match unlockLoop decOk files with
  | some e => (stCreated, some e)
  | none => ({ check := some content, finalized := true }, none)

theorem unlockLoop_fails (decOk : FilePair → Bool) :
    ∀ (files : List FilePair), (∃ fp ∈ files, decOk fp = false) →
      (unlockLoop decOk files).isSome := by
  intro files
  induction files with
  | nil => intro h; exact absurd h (by simp)
  | cons hd rest ih =>
    intro h
    by_cases hok : decOk hd
    · rw [unlockLoop, if_pos hok]
      refine ih ?_
      rcases h with ⟨fp, hmem, hfp⟩
      rcases List.mem_cons.mp hmem with rfl | hmem2
      · rw [hok] at hfp; cases hfp
      · exact ⟨fp, hmem2, hfp⟩
    · rw [unlockLoop, if_neg hok]
      rfl

/-- **C4** (counterexample): in the pipelined revision, a run whose single
decryption fails leaves the checklist file present and truncated — the
previously existing checklist `"OLD"` is destroyed, and a checklist file is
newly on disk — refuting "no checklist file is newly left on disk and any
previously existing checklist file is left untouched". -/
theorem pipelined_unlock_truncates_checklist :
    (pipeUnlock (fun _ => false) [⟨"a.gpg", "a"⟩]
      { check := some "OLD", finalized := false } "NEW").1
      = { check := some "", finalized := false }
    ∧ ({ check := some "", finalized := false } : CheckState).check
        ≠ some "OLD"
    ∧ ({ check := some "", finalized := false } : CheckState).check ≠ none :=
  ⟨rfl, by decide, by decide⟩

/-- **C4** (amended, proved): when decryption fails on some File Pair, the
sequential revision leaves the checklist-file state exactly as it was (no
file newly created, a previously existing one untouched, nothing finalized),
while the pipelined revision — which created (truncating) the checklist file
before decrypting — leaves a truncated, un-finalized checklist file behind;
neither revision signals completion, and both report the failure. -/
theorem Unlock_failure_checklist_state (decOk : FilePair → Bool)
    (files : List FilePair) (st : CheckState) (content : String)
    (hfail : ∃ fp ∈ files, decOk fp = false) :
    ((seqUnlock decOk files st content).1 = st
      ∧ (seqUnlock decOk files st content).2.isSome)
    ∧ ((pipeUnlock decOk files st content).1
        = { check := some "", finalized := false }
      ∧ (pipeUnlock decOk files st content).2.isSome) := by
  obtain ⟨e, he⟩ := Option.isSome_iff_exists.mp (unlockLoop_fails decOk files hfail)
  rw [seqUnlock, pipeUnlock, he]
  exact ⟨⟨rfl, rfl⟩, rfl, rfl⟩

/-- Witness for `Unlock_failure_checklist_state`: one pair whose decryption
fails, starting from an absent checklist file. -/
theorem Unlock_failure_checklist_state_witness :
    (∃ fp ∈ [(⟨"b.gpg", "b"⟩ : FilePair)], (fun _ => false) fp = false)
    ∧ ((seqUnlock (fun _ => false) [⟨"b.gpg", "b"⟩]
        { check := none, finalized := false } "C").1
        = { check := none, finalized := false }
      ∧ (seqUnlock (fun _ => false) [⟨"b.gpg", "b"⟩]
          { check := none, finalized := false } "C").2.isSome)
    ∧ ((pipeUnlock (fun _ => false) [⟨"b.gpg", "b"⟩]
        { check := none, finalized := false } "C").1
        = { check := some "", finalized := false }
      ∧ (pipeUnlock (fun _ => false) [⟨"b.gpg", "b"⟩]
          { check := none, finalized := false } "C").2.isSome) := by
  have h := Unlock_failure_checklist_state (fun _ => false) [⟨"b.gpg", "b"⟩]
    { check := none, finalized := false } "C" ⟨⟨"b.gpg", "b"⟩, by decide, rfl⟩
  exact ⟨⟨⟨"b.gpg", "b"⟩, by decide, rfl⟩, h.1, h.2⟩

/-! ## Recipient-identity (`.gpgid`) handling -/

/-- How the model classifies the result of `ioutil.ReadFile(.gpgid)`:
the file does not exist (`os.IsNotExist(err)` true), or some other I/O
failure occurred (permission error, disk error, …). -/
inductive ReadFileErr
  | notExist
  | ioErr
deriving Repr, DecidableEq

/-- Outcome of the `.gpgid` handling in `NewJournalFromArgs`:
`notInitializedExit` models printing "Journal directory is not initialised.
Run journal init." followed by `os.Exit(0)` — a user-visible guidance
message and a success exit; `proceed r` models continuing construction with
`gpgReceiver = r`. -/
inductive InitOutcome
  | notInitializedExit
  | proceed (receiver : String)
deriving Repr, DecidableEq

/-- The `.gpgid` read of `NewJournalFromArgs` (second revision): the result
is tested only with `err != nil && os.IsNotExist(err)`, which exits cleanly;
any other error is not examined, so on a transient I/O failure the nil byte
slice falls through to `strings.TrimSpace(string(gpgid))` and the journal
proceeds with an empty recipient identity. -/
def loadGpgid (r : Except ReadFileErr String) : InitOutcome :=
  match r with
  | .error .notExist => .notInitializedExit
  | .error .ioErr => .proceed (trimSpace "")
  | .ok s => .proceed (trimSpace s)

/-- **C9** (counterexample): a transient I/O failure reading `.gpgid` is
silently treated as initialized — the journal proceeds with an empty
recipient identity instead of being distinguished from the file-absent
case. -/
theorem transient_gpgid_failure_treated_as_initialized :
    loadGpgid (.error .ioErr) = .proceed ""
    ∧ loadGpgid (.error .ioErr) ≠ .notInitializedExit :=
  ⟨by decide, by decide⟩

/-- **C9** (amended, proved): when `.gpgid` is absent the operation
terminates cleanly with the user-visible "not initialised" guidance and a
success exit (`os.Exit(0)`), not an error; but a transient I/O failure
reading the file is not distinguished: it is silently treated as initialized
and the journal proceeds with an empty recipient identity, while a
successful read proceeds with the trimmed file contents. -/
theorem gpgid_absent_clean_exit :
    loadGpgid (.error .notExist) = .notInitializedExit
    ∧ loadGpgid (.error .ioErr) = .proceed ""
    ∧ ∀ s, loadGpgid (.ok s) = .proceed (trimSpace s) :=
  ⟨rfl, by decide, fun _ => rfl⟩

end Journal
